import Mathlib

/-!
Verification of `safe_linked_list_rust` (src/src/lib.rs): a circular
doubly-linked list built from `Rc<RefCell<Node<T>>>` cells.

Embedding conventions:
* The collection of `Rc<RefCell<Node<T>>>` cells alive in a `LinkedList`
  is modelled as a heap `List (Node T)`; an `Rc` pointer is the cell's
  index (`Nat`) in that list, so `Rc::ptr_eq` is index equality and
  `borrow` is `heap[id]?`.
* `Node<T>` mirrors the Rust struct: a value plus optional neighbour
  pointers (`next_node`, `prev_node`).
* Every Rust operation that can panic (`unwrap` on `None`, the explicit
  `panic!` branches) is modelled as an `Option`-returning function,
  `none` standing for the signalled fatal condition.
* `LinkedList::add` allocates a fresh cell: the new id is the current
  heap length, and the heap grows by one.
-/

namespace SafeLinkedList

/-- The Rust struct `Node<T>`: a value and the two optional neighbour
pointers. A value of this type is also what the library hands out as a
node snapshot (`.clone()` of the cell's contents). -/
structure Node (T : Type) where
  value : T
  next_node : Option Nat
  prev_node : Option Nat
deriving DecidableEq

/-- The Rust struct `LinkedList<T>`: head/tail pointers, together with
the heap of reference-counted cells the pointers index into. -/
structure LinkedList (T : Type) where
  heap : List (Node T)
  head : Option Nat
  tail : Option Nat
deriving DecidableEq

/-- The Rust struct `LinkedListIter<T>`: the origin sentinel (`head`)
and the single cursor (`cur_node`) used by both traversal directions. -/
structure LinkedListIter (T : Type) where
  head : Option Nat
  cur_node : Option Nat
deriving DecidableEq

/-- In-place update of the cell at index `i` (a `borrow_mut` write
through an `Rc`); out-of-range indices leave the heap unchanged. -/
def listModify (f : α → α) : Nat → List α → List α
  | _, [] => []
  | 0, a :: as => f a :: as
  | i + 1, a :: as => a :: listModify f i as

namespace Node

/-- Rust `Node::next`: panics (`none`) when `next_node` is absent, otherwise
dereferences the neighbour pointer and returns a clone of that cell. -/
def next (heap : List (Node T)) (self : Node T) : Option (Node T) :=
  match self.next_node with
  | some id => heap[id]?
  | none => none

/-- Rust `Node::prev`: panics (`none`) when `prev_node` is absent, otherwise
dereferences the neighbour pointer and returns a clone of that cell. -/
def prev (heap : List (Node T)) (self : Node T) : Option (Node T) :=
  match self.prev_node with
  | some id => heap[id]?
  | none => none

/-- Rust `Node::mutate`: follows the snapshot's recorded `next` pointer, takes
that cell's `prev` pointer, and writes `value` into the cell it points
at. Returns the updated heap, or `none` where Rust would panic on an
`unwrap`. -/
def mutate (heap : List (Node T)) (self : Node T) (value : T) :
    Option (List (Node T)) := do
  let nid ← self.next_node
  let nextN ← heap[nid]?
  let tid ← nextN.prev_node
  pure (listModify (fun nd => { nd with value := value }) tid heap)

end Node

namespace LinkedList

/-- Rust `LinkedList::new()`: empty store, no cells, no head, no tail. -/
def new : LinkedList T := { heap := [], head := none, tail := none }

/-- Rust `LinkedList::add`: allocates a fresh self-linked cell when the store
is empty, otherwise splices the new cell in between the current tail and
the current head (becoming the new tail). `none` models the `unwrap`
panic in the unreachable state where `head` is set but `tail` is not. -/
def add (l : LinkedList T) (value : T) : Option (LinkedList T) :=
  let newId := l.heap.length
  match l.head, l.tail with
  | none, _ =>
      some { heap := l.heap ++ [⟨value, some newId, some newId⟩],
             head := some newId, tail := some newId }
  | some h, some t =>
      let heap1 := l.heap ++ [⟨value, some h, some t⟩]
      let heap2 := listModify (fun nd => { nd with prev_node := some newId }) h heap1
      let heap3 := listModify (fun nd => { nd with next_node := some newId }) t heap2
      some { heap := heap3, head := some h, tail := some newId }
  | some _, none => none

/-- Rust `LinkedList::head()`: panics (`none`) on an unbuilt store, otherwise
returns a clone of the head cell. -/
def headSnap (l : LinkedList T) : Option (Node T) := do
  let h ← l.head
  l.heap[h]?

/-- Rust `LinkedList::tail()`: panics (`none`) on an unbuilt store, otherwise
returns a clone of the tail cell. -/
def tailSnap (l : LinkedList T) : Option (Node T) := do
  let t ← l.tail
  l.heap[t]?

/-- Rust `LinkedList::is_tail`: resolves the argument snapshot's identity as
the `prev` of its recorded `next` neighbour and compares that cell to
the store's tail pointer (`Rc::ptr_eq`). -/
def is_tail (l : LinkedList T) (node : Node T) : Option Bool := do
  let nid ← node.next_node
  let nextN ← l.heap[nid]?
  let cid ← nextN.prev_node
  let t ← l.tail
  pure (decide (t = cid))

/-- Rust `LinkedList::is_head`: resolves the argument snapshot's identity as
the `prev` of its recorded `next` neighbour and compares that cell to
the store's head pointer (`Rc::ptr_eq`). -/
def is_head (l : LinkedList T) (node : Node T) : Option Bool := do
  let nid ← node.next_node
  let nextN ← l.heap[nid]?
  let cid ← nextN.prev_node
  let h ← l.head
  pure (decide (h = cid))

/-- Rust `LinkedList::iter()`: both the origin sentinel and the cursor start
at the store's head pointer. -/
def iter (l : LinkedList T) : LinkedListIter T :=
  { head := l.head, cur_node := l.head }

end LinkedList

namespace LinkedListIter

/-- Rust `Iterator::next` for `LinkedListIter`: with the cursor exhausted it
yields nothing; otherwise it clones the current cell, advances the
cursor to that cell's `next` pointer — exhausting it when that pointer
equals the origin sentinel — and yields the clone taken before the
advance. The outer `Option` models the `unwrap` panics. -/
def next (heap : List (Node T)) (it : LinkedListIter T) :
    Option (Option (Node T) × LinkedListIter T) :=
  match it.cur_node with
  | none => some (none, it)
  | some c => do
      let cur_t ← heap[c]?
      let h ← it.head
      let nid ← cur_t.next_node
      let cur2 := if h = nid then none else some nid
      pure (some cur_t, { head := it.head, cur_node := cur2 })

/-- Rust `DoubleEndedIterator::next_back` for `LinkedListIter`: with the
cursor exhausted it yields nothing; otherwise it reads the current
cell's `prev` pointer, moves the cursor there — exhausting it when that
pointer equals the origin sentinel — and yields a clone of that `prev`
cell. Both directions share the single `cur_node` cursor. -/
def next_back (heap : List (Node T)) (it : LinkedListIter T) :
    Option (Option (Node T) × LinkedListIter T) :=
  match it.cur_node with
  | none => some (none, it)
  | some c => do
      let curN ← heap[c]?
      let nb ← curN.prev_node
      let h ← it.head
      let cur2 := if h = nb then none else some nb
      let yn ← heap[nb]?
      pure (some yn, { head := it.head, cur_node := cur2 })

end LinkedListIter

/-- Appends each value of `vs` in order (a sequence of `add` calls). -/
def addAll (l : LinkedList T) : List T → Option (LinkedList T)
  | [] => some l
  | v :: vs => (l.add v).bind (fun l2 => addAll l2 vs)

/-- The store produced by `new()` followed by one `add` per element of
`vs`, in order. -/
def build (vs : List T) : Option (LinkedList T) :=
  addAll LinkedList.new vs

/-- Runs the forward iterator (`Iterator::next`) exactly `k` times,
collecting every value yielded; `none` models a panic in some step. -/
def runFwd (heap : List (Node T)) : Nat → LinkedListIter T → Option (List (Node T) × LinkedListIter T)
  | 0, it => some ([], it)
  | k + 1, it => do
      let (o, it2) ← it.next heap
      let (rest, itF) ← runFwd heap k it2
      pure (o.toList ++ rest, itF)

/-- Runs the backward iterator (`DoubleEndedIterator::next_back`)
exactly `k` times, collecting every value yielded. -/
def runBwd (heap : List (Node T)) : Nat → LinkedListIter T → Option (List (Node T) × LinkedListIter T)
  | 0, it => some ([], it)
  | k + 1, it => do
      let (o, it2) ← it.next_back heap
      let (rest, itF) ← runBwd heap k it2
      pure (o.toList ++ rest, itF)

/-- The values seen by a forward traversal of `k` iterator steps. -/
def fwdValues (l : LinkedList T) (k : Nat) : Option (List T) :=
  (runFwd l.heap k l.iter).map (fun p => p.1.map Node.value)

/-- The values seen by a backward traversal of `k` iterator steps. -/
def bwdValues (l : LinkedList T) (k : Nat) : Option (List T) :=
  (runBwd l.heap k l.iter).map (fun p => p.1.map Node.value)

/-- The `for i in list.iter() { i.mutate(f(i.value)) }` loop of the
sample program: step the forward iterator (at most `k` times) and call
`Node::mutate` with `f` of the yielded snapshot's value after each
yield, threading the updated heap through. -/
def mutateEach (f : T → T) (heap : List (Node T)) : Nat → LinkedListIter T → Option (List (Node T))
  | 0, _ => some heap
  | k + 1, it => do
      let (o, it2) ← it.next heap
      match o with
      | none => some heap
      | some snap => do
          let heap2 ← Node.mutate heap snap (f snap.value)
          mutateEach f heap2 k it2

/-- The chain `node.next().next().next().prev().prev().prev()` from the
sample program. -/
def next3prev3 (heap : List (Node T)) (nd : Node T) : Option (Node T) := do
  let a ← nd.next heap
  let b ← a.next heap
  let c ← b.next heap
  let d ← c.prev heap
  let e ← d.prev heap
  e.prev heap

/-! ## The ring shape reached by a sequence of `add` calls

`build vs` provably produces the heap in which cell `i` holds the
`i`-th value, its `next` pointer is `i + 1` (wrapping to `0` at the
end) and its `prev` pointer is `i - 1` (wrapping to `n - 1` at the
front), with `head = 0` and `tail = n - 1`. -/

/-- Index of the `next` neighbour of cell `i` in a ring of `n` cells. -/
def nextIdx (n i : Nat) : Nat := if i + 1 = n then 0 else i + 1

/-- Index of the `prev` neighbour of cell `i` in a ring of `n` cells. -/
def prevIdx (n i : Nat) : Nat := if i = 0 then n - 1 else i - 1

/-- The cell at index `i` of an `n`-cell ring holding value `v`. -/
def ringNode (n i : Nat) (v : T) : Node T :=
  { value := v, next_node := some (nextIdx n i), prev_node := some (prevIdx n i) }

/-- Cells `i`, `i+1`, … of an `n`-cell ring, holding the values `vs`. -/
def ringHeapAux (n : Nat) : Nat → List T → List (Node T)
  | _, [] => []
  | i, v :: vs => ringNode n i v :: ringHeapAux n (i + 1) vs

/-- The heap of the ring holding the values `vs` in order. -/
def ringHeap (vs : List T) : List (Node T) := ringHeapAux vs.length 0 vs

/-- The store holding the values `vs` in ring order: `head` is cell `0`
and `tail` is cell `vs.length - 1`. -/
def ringList (vs : List T) : LinkedList T :=
  match vs with
  | [] => LinkedList.new
  | _ :: _ => { heap := ringHeap vs, head := some 0, tail := some (vs.length - 1) }

theorem nextIdx_lt (n i : Nat) (h : i < n) : nextIdx n i < n := by
  unfold nextIdx; split <;> omega

theorem prevIdx_lt (n i : Nat) (h : i < n) : prevIdx n i < n := by
  unfold prevIdx; split <;> omega

theorem prevIdx_nextIdx (n i : Nat) (h : i < n) : prevIdx n (nextIdx n i) = i := by
  unfold nextIdx prevIdx; split <;> split <;> omega

theorem nextIdx_prevIdx (n i : Nat) (h : i < n) : nextIdx n (prevIdx n i) = i := by
  unfold nextIdx prevIdx; split <;> split <;> omega

theorem listModify_getElem? (f : α → α) (i j : Nat) (l : List α) :
    (listModify f i l)[j]? = if i = j then Option.map f l[j]? else l[j]? := by
  induction l generalizing i j with
  | nil => simp [listModify]
  | cons a as ih =>
    cases i with
    | zero => cases j <;> simp [listModify]
    | succ i2 =>
      cases j with
      | zero => simp [listModify]
      | succ j2 => simpa [listModify] using ih i2 j2

theorem listModify_length (f : α → α) (i : Nat) (l : List α) :
    (listModify f i l).length = l.length := by
  induction l generalizing i with
  | nil => cases i <;> rfl
  | cons a as ih => cases i <;> simp [listModify, ih]

theorem ringHeapAux_getElem? (n : Nat) (vs : List T) (i j : Nat) :
    (ringHeapAux n i vs)[j]? = Option.map (ringNode n (i + j)) vs[j]? := by
  induction vs generalizing i j with
  | nil => simp [ringHeapAux]
  | cons v vs ih =>
    cases j with
    | zero => simp [ringHeapAux]
    | succ j2 =>
      have h : i + (j2 + 1) = (i + 1) + j2 := by omega
      simpa [ringHeapAux, h] using ih (i + 1) j2

theorem ringHeap_getElem? (vs : List T) (j : Nat) :
    (ringHeap vs)[j]? = Option.map (ringNode vs.length j) vs[j]? := by
  simpa using ringHeapAux_getElem? vs.length vs 0 j

theorem ringHeapAux_length (n i : Nat) (vs : List T) :
    (ringHeapAux n i vs).length = vs.length := by
  induction vs generalizing i with
  | nil => rfl
  | cons v vs ih => simp [ringHeapAux, ih]

theorem ringHeap_length (vs : List T) : (ringHeap vs).length = vs.length :=
  ringHeapAux_length vs.length 0 vs

theorem ringList_heap (vs : List T) : (ringList vs).heap = ringHeap vs := by
  cases vs <;> rfl

theorem ringList_head (vs : List T) (h : vs ≠ []) : (ringList vs).head = some 0 := by
  cases vs with
  | nil => exact absurd rfl h
  | cons v vs => rfl

theorem ringList_tail (vs : List T) (h : vs ≠ []) :
    (ringList vs).tail = some (vs.length - 1) := by
  cases vs with
  | nil => exact absurd rfl h
  | cons v vs => rfl

/-- Definitional unfolding of `add` on a store with no head. -/
theorem add_mk_none (heap : List (Node T)) (tl : Option Nat) (v : T) :
    LinkedList.add ⟨heap, none, tl⟩ v =
      some ⟨heap ++ [⟨v, some heap.length, some heap.length⟩],
            some heap.length, some heap.length⟩ := rfl

/-- Definitional unfolding of `add` on a store with head `h` and
tail `t`. -/
theorem add_mk_some (heap : List (Node T)) (h t : Nat) (v : T) :
    LinkedList.add ⟨heap, some h, some t⟩ v =
      some ⟨listModify (fun nd => { nd with next_node := some heap.length }) t
              (listModify (fun nd => { nd with prev_node := some heap.length }) h
                (heap ++ [⟨v, some h, some t⟩])),
            some h, some heap.length⟩ := rfl

/-- One `add` call takes the ring holding `us` to the ring holding
`us ++ [v]`: the new cell is spliced in between the old tail and the
head and becomes the new tail. -/
theorem add_ringList (us : List T) (v : T) :
    (ringList us).add v = some (ringList (us ++ [v])) := by
  cases us with
  | nil => rfl
  | cons u us0 =>
    have hlen : (ringHeap (u :: us0)).length = us0.length + 1 :=
      ringHeap_length (u :: us0)
    have hbig : ((u :: us0) ++ [v]).length = us0.length + 2 := by simp
    have hbig2 : (u :: (us0 ++ [v])).length = us0.length + 2 := by simp
    have hm1 : (u :: us0).length = us0.length + 1 := rfl
    rw [show ringList (u :: us0) =
          ⟨ringHeap (u :: us0), some 0, some us0.length⟩ from rfl]
    rw [add_mk_some, hlen]
    refine congrArg some ?_
    rw [show ringList ((u :: us0) ++ [v]) =
          ⟨ringHeap ((u :: us0) ++ [v]), some 0,
            some (((u :: us0) ++ [v]).length - 1)⟩ from rfl]
    have htail : ((u :: us0) ++ [v]).length - 1 = us0.length + 1 := by
      simp
    rw [htail]
    refine congrArg (fun hp => LinkedList.mk hp (some 0) (some (us0.length + 1))) ?_
    apply List.ext_getElem?
    intro j
    rw [listModify_getElem?, listModify_getElem?, ringHeap_getElem?]
    have hm : (u :: us0).length = us0.length + 1 := rfl
    rcases Nat.lt_trichotomy j (us0.length + 1) with hj | hj | hj
    · -- an old cell: only its boundary pointers can have been rewritten
      have hY : (ringHeap (u :: us0) ++ [(⟨v, some 0, some us0.length⟩ : Node T)])[j]? =
          (ringHeap (u :: us0))[j]? :=
        List.getElem?_append_left (by omega)
      have ha : ∃ a, (u :: us0)[j]? = some a :=
        ⟨(u :: us0).get ⟨j, by simpa using hj⟩, List.getElem?_eq_getElem (by simpa using hj)⟩
      obtain ⟨a, ha⟩ := ha
      have hvj : ((u :: us0) ++ [v])[j]? = some a := by
        rw [List.getElem?_append_left (by simpa using hj), ha]
      rw [hY, ringHeap_getElem?, ha, hvj]
      simp only [Option.map_some', List.length_cons, List.length_append,
        List.length_singleton, List.length_nil]
      split_ifs <;> refine congrArg some ?_ <;>
        unfold ringNode nextIdx prevIdx <;>
        split_ifs <;> try contradiction
      all_goals simp [Node.mk.injEq] <;> omega
    · -- the freshly appended cell
      subst hj
      have hY : (ringHeap (u :: us0) ++ [(⟨v, some 0, some us0.length⟩ : Node T)])[us0.length + 1]? =
          some ⟨v, some 0, some us0.length⟩ := by
        rw [← hlen]
        exact List.getElem?_concat_length _ _
      have hvj : ((u :: us0) ++ [v])[us0.length + 1]? = some v :=
        List.getElem?_concat_length (u :: us0) v
      rw [if_neg (by omega), if_neg (by omega), hY, hvj]
      simp only [Option.map_some', List.length_cons, List.length_append,
        List.length_singleton, List.length_nil]
      refine congrArg some ?_
      unfold ringNode nextIdx prevIdx
      split_ifs <;> try contradiction
      all_goals simp [Node.mk.injEq] <;> omega
    · -- indices past the new length: nothing on either side
      have hY : (ringHeap (u :: us0) ++ [(⟨v, some 0, some us0.length⟩ : Node T)])[j]? =
          (none : Option (Node T)) := by
        apply List.getElem?_eq_none
        simp only [List.length_append, hlen, List.length_singleton]
        omega
      have hvj : ((u :: us0) ++ [v])[j]? = (none : Option T) := by
        apply List.getElem?_eq_none
        simp only [List.length_append, List.length_cons, List.length_singleton,
          List.length_nil]
        omega
      rw [if_neg (by omega), if_neg (by omega), hY, hvj]
      rfl

/-- Appending `vs` one value at a time to the ring holding `us`
produces the ring holding `us ++ vs`. -/
theorem addAll_ringList (vs us : List T) :
    addAll (ringList us) vs = some (ringList (us ++ vs)) := by
  induction vs generalizing us with
  | nil => simp [addAll]
  | cons v vs ih =>
    have h : addAll (ringList us) (v :: vs) =
        (ringList us |>.add v).bind (fun l2 => addAll l2 vs) := rfl
    rw [h, add_ringList]
    show addAll (ringList (us ++ [v])) vs = some (ringList (us ++ v :: vs))
    rw [ih (us ++ [v])]
    have h2 : (us ++ [v]) ++ vs = us ++ v :: vs := by simp
    rw [h2]

/-- Calling `new()` followed by the `add` calls for `vs` builds exactly the
ring holding `vs`. -/
theorem build_eq (vs : List T) : build vs = some (ringList vs) := by
  have h : build vs = addAll (ringList []) vs := rfl
  rw [h, addAll_ringList]
  rfl

theorem ringList_iter (vs : List T) (h : vs ≠ []) :
    (ringList vs).iter = ⟨some 0, some 0⟩ := by
  cases vs with
  | nil => exact absurd rfl h
  | cons v vs => rfl

/-- A successful lookup in a ring heap yields the canonical ring cell. -/
theorem ringHeap_node (vs : List T) (i : Nat) (nd : Node T)
    (h : (ringHeap vs)[i]? = some nd) :
    ∃ hi : i < vs.length, nd = ringNode vs.length i (vs.get ⟨i, hi⟩) := by
  have h2 := ringHeap_getElem? vs i
  rw [h] at h2
  cases hv : vs[i]? with
  | none => rw [hv] at h2; simp at h2
  | some a =>
    rw [hv] at h2
    obtain ⟨hlt, hval⟩ := List.getElem?_eq_some_iff.mp hv
    refine ⟨hlt, ?_⟩
    have h3 : nd = ringNode vs.length i a := by simpa using h2
    rw [h3, List.get_eq_getElem, hval]

theorem ringHeap_getElem (vs : List T) (i : Nat) (hi : i < vs.length) :
    (ringHeap vs)[i]? = some (ringNode vs.length i (vs.get ⟨i, hi⟩)) := by
  rw [ringHeap_getElem?, List.getElem?_eq_getElem hi]
  rfl

/-! ## Iterator traversal characterization -/

theorem runFwd_exhausted (heap : List (Node T)) (h0 : Option Nat) (k : Nat) :
    runFwd heap k ⟨h0, none⟩ = some ([], ⟨h0, none⟩) := by
  induction k with
  | zero => rfl
  | succ k ih => simp [runFwd, LinkedListIter.next, ih]

theorem runBwd_exhausted (heap : List (Node T)) (h0 : Option Nat) (k : Nat) :
    runBwd heap k ⟨h0, none⟩ = some ([], ⟨h0, none⟩) := by
  induction k with
  | zero => rfl
  | succ k ih => simp [runBwd, LinkedListIter.next_back, ih]

/-- One forward step of the iterator positioned on cell `i`: it yields
cell `i`'s snapshot and advances, exhausting the cursor when cell `i`
was the tail. -/
theorem iter_next_at (vs : List T) (i : Nat) (nd : Node T)
    (h : (ringHeap vs)[i]? = some nd) :
    LinkedListIter.next (ringHeap vs) ⟨some 0, some i⟩ =
      some (some nd, ⟨some 0, if i + 1 = vs.length then none else some (i + 1)⟩) := by
  obtain ⟨hi, hnd⟩ := ringHeap_node vs i nd h
  have hn : nd.next_node = some (nextIdx vs.length i) := by rw [hnd]; rfl
  simp only [LinkedListIter.next, h, hn, Option.bind_eq_bind, Option.some_bind]
  refine congrArg some (congrArg _ ?_)
  refine congrArg (LinkedListIter.mk (some 0)) ?_
  unfold nextIdx
  by_cases hc : i + 1 = vs.length
  · simp [hc]
  · simp [hc, (by omega : (0 : Nat) ≠ i + 1)]

/-- One backward step of the iterator positioned on cell `i`: it yields
the snapshot of cell `i`'s predecessor and moves there, exhausting the
cursor when that predecessor is the head. -/
theorem iter_next_back_at (vs : List T) (i : Nat) (nd ndp : Node T)
    (h : (ringHeap vs)[i]? = some nd)
    (hp : (ringHeap vs)[prevIdx vs.length i]? = some ndp) :
    LinkedListIter.next_back (ringHeap vs) ⟨some 0, some i⟩ =
      some (some ndp, ⟨some 0,
        if prevIdx vs.length i = 0 then none else some (prevIdx vs.length i)⟩) := by
  obtain ⟨hi, hnd⟩ := ringHeap_node vs i nd h
  have hn : nd.prev_node = some (prevIdx vs.length i) := by rw [hnd]; rfl
  simp only [LinkedListIter.next_back, h, hn, hp, Option.bind_eq_bind, Option.some_bind]
  refine congrArg some (congrArg _ ?_)
  refine congrArg (LinkedListIter.mk (some 0)) ?_
  by_cases hc : prevIdx vs.length i = 0
  · rw [if_pos hc, if_pos hc.symm]
  · rw [if_neg hc, if_neg (fun hcc => hc hcc.symm)]

/-- A forward run with exactly as much fuel as there are cells left
ahead of the cursor yields those cells in order and exhausts. -/
theorem runFwd_ring (vs : List T) :
    ∀ (k i : Nat), i < vs.length → k = vs.length - i →
    runFwd (ringHeap vs) k ⟨some 0, some i⟩ =
      some ((ringHeap vs).drop i, ⟨some 0, none⟩) := by
  intro k
  induction k with
  | zero => intro i hi hk; omega
  | succ k ih =>
    intro i hi hk
    have hnode := ringHeap_getElem vs i hi
    have hdrop : (ringHeap vs).drop i =
        ringNode vs.length i (vs.get ⟨i, hi⟩) :: (ringHeap vs).drop (i + 1) := by
      have hi2 : i < (ringHeap vs).length := by rw [ringHeap_length]; exact hi
      rw [List.drop_eq_getElem_cons hi2]
      obtain ⟨h1, h2⟩ := List.getElem?_eq_some_iff.mp hnode
      rw [h2]
    rw [runFwd, iter_next_at vs i _ hnode]
    by_cases hc : i + 1 = vs.length
    · rw [if_pos hc]
      have hk0 : k = 0 := by omega
      subst hk0
      have hdrop2 : (ringHeap vs).drop (i + 1) = [] := by
        apply List.drop_eq_nil_of_le
        rw [ringHeap_length]; omega
      simp [runFwd, hdrop, hdrop2]
    · rw [if_neg hc]
      have hrec := ih (i + 1) (by omega) (by omega)
      simp [hrec, hdrop]

/-- A backward run with fuel `i` from the cursor on cell `i ≥ 1` yields
cells `i-1`, …, `0` in that order and exhausts. -/
theorem runBwd_ring (vs : List T) :
    ∀ (k i : Nat), 1 ≤ i → i < vs.length → k = i →
    runBwd (ringHeap vs) k ⟨some 0, some i⟩ =
      some (((ringHeap vs).take i).reverse, ⟨some 0, none⟩) := by
  intro k
  induction k with
  | zero => intro i h1 hi hk; omega
  | succ k ih =>
    intro i h1 hi hk
    have hnode := ringHeap_getElem vs i hi
    have hpidx : prevIdx vs.length i = k := by unfold prevIdx; split_ifs <;> omega
    have hk2 : k < vs.length := by omega
    have hpnode := ringHeap_getElem vs k hk2
    have hstep := iter_next_back_at vs i _ _ hnode (by rw [hpidx]; exact hpnode)
    rw [hpidx] at hstep
    have htake : ((ringHeap vs).take (k + 1)).reverse =
        ringNode vs.length k (vs.get ⟨k, hk2⟩) :: ((ringHeap vs).take k).reverse := by
      have hk3 : k < (ringHeap vs).length := by rw [ringHeap_length]; exact hk2
      rw [List.take_succ, List.getElem?_eq_getElem hk3]
      obtain ⟨h3, h4⟩ := List.getElem?_eq_some_iff.mp hpnode
      rw [List.reverse_append]
      simp [h4]
    rw [runBwd, hstep]
    by_cases hc : k = 0
    · subst hc
      rw [if_pos rfl]
      have hk1 : i = 1 := by omega
      subst hk1
      simp [runBwd, htake]
    · rw [if_neg hc]
      have hrec := ih k (by omega) hk2 rfl
      have hik : i = k + 1 := by omega
      subst hik
      simp [hrec, htake]

/-- A full forward traversal of a non-empty ring yields every cell in
order and exhausts the iterator. -/
theorem runFwd_full (vs : List T) (h : vs ≠ []) :
    runFwd (ringHeap vs) vs.length ⟨some 0, some 0⟩ =
      some (ringHeap vs, ⟨some 0, none⟩) := by
  have h0 : 0 < vs.length := List.length_pos.mpr h
  have h2 := runFwd_ring vs vs.length 0 h0 (by omega)
  simpa using h2

/-- A full backward traversal of a non-empty ring yields every cell in
reverse order and exhausts the iterator. -/
theorem runBwd_full (vs : List T) (h : vs ≠ []) :
    runBwd (ringHeap vs) vs.length ⟨some 0, some 0⟩ =
      some ((ringHeap vs).reverse, ⟨some 0, none⟩) := by
  have h0 : 0 < vs.length := List.length_pos.mpr h
  have hk2 : vs.length - 1 < vs.length := by omega
  obtain ⟨nd0, hnode⟩ : ∃ x, (ringHeap vs)[0]? = some x :=
    ⟨_, ringHeap_getElem vs 0 h0⟩
  obtain ⟨ndp, hpnode⟩ : ∃ x, (ringHeap vs)[vs.length - 1]? = some x :=
    ⟨_, ringHeap_getElem vs (vs.length - 1) hk2⟩
  have hpidx : prevIdx vs.length 0 = vs.length - 1 := by unfold prevIdx; simp
  have hstep := iter_next_back_at vs 0 nd0 ndp hnode (by rw [hpidx]; exact hpnode)
  rw [hpidx] at hstep
  obtain ⟨m, hn⟩ : ∃ m, vs.length = m + 1 := ⟨vs.length - 1, by omega⟩
  have hm1 : vs.length - 1 = m := by omega
  rw [hm1] at hstep hpnode
  rw [hn]
  rw [runBwd, hstep]
  by_cases hz : m = 0
  · subst hz
    rw [if_pos rfl]
    have hl : (ringHeap vs).length = 1 := by rw [ringHeap_length]; omega
    obtain ⟨c, hc⟩ : ∃ c, ringHeap vs = [c] := List.length_eq_one.mp hl
    rw [hc] at hpnode
    simp only [List.getElem?_cons_zero, Option.some.injEq] at hpnode
    rw [hc, ← hpnode]
    simp [runBwd, runBwd_exhausted]
  · rw [if_neg hz]
    have hrec := runBwd_ring vs m m (by omega) (by omega) rfl
    have hfull : (ringHeap vs).take (m + 1) = ringHeap vs := by
      apply List.take_of_length_le
      rw [ringHeap_length, hn]
    have hrev : (ringHeap vs).reverse = ndp :: ((ringHeap vs).take m).reverse := by
      conv_lhs => rw [← hfull]
      rw [List.take_succ, hpnode]
      simp
    rw [hrev]
    simp [hrec]

/-- Running `a + b` forward steps is running `a`, then `b` more from
where the cursor ended up. -/
theorem runFwd_add (heap : List (Node T)) (a b : Nat) :
    ∀ it : LinkedListIter T, runFwd heap (a + b) it =
      (runFwd heap a it).bind fun p =>
        (runFwd heap b p.2).map fun q => (p.1 ++ q.1, q.2) := by
  induction a with
  | zero =>
    intro it
    simp [runFwd]
  | succ a ih =>
    intro it
    have h : a + 1 + b = (a + b) + 1 := by omega
    rw [h, runFwd, runFwd]
    cases hstep : LinkedListIter.next heap it with
    | none => simp
    | some p =>
      obtain ⟨o, it2⟩ := p
      simp only [Option.bind_eq_bind, Option.some_bind]
      rw [ih it2]
      cases hrest : runFwd heap a it2 with
      | none => simp [hrest]
      | some q =>
        cases hq : runFwd heap b q.2 with
        | none => simp [hrest, hq]
        | some r => simp [hrest, hq, List.append_assoc]

/-- Running `a + b` backward steps is running `a`, then `b` more from
where the cursor ended up. -/
theorem runBwd_add (heap : List (Node T)) (a b : Nat) :
    ∀ it : LinkedListIter T, runBwd heap (a + b) it =
      (runBwd heap a it).bind fun p =>
        (runBwd heap b p.2).map fun q => (p.1 ++ q.1, q.2) := by
  induction a with
  | zero =>
    intro it
    simp [runBwd]
  | succ a ih =>
    intro it
    have h : a + 1 + b = (a + b) + 1 := by omega
    rw [h, runBwd, runBwd]
    cases hstep : LinkedListIter.next_back heap it with
    | none => simp
    | some p =>
      obtain ⟨o, it2⟩ := p
      simp only [Option.bind_eq_bind, Option.some_bind]
      rw [ih it2]
      cases hrest : runBwd heap a it2 with
      | none => simp [hrest]
      | some q =>
        cases hq : runBwd heap b q.2 with
        | none => simp [hrest, hq]
        | some r => simp [hrest, hq, List.append_assoc]

/-! ## Claim theorems -/

/-- Claim C1: for every non-empty sequence of values appended by `add`
to a store created by `new()`, every `add` succeeds and afterwards the
store holds exactly N cells arranged in a closed ring: the head cell's
`prev` is the tail, the tail cell's `next` is the head, and every
cell's `next.prev` and `prev.next` resolve back to that same cell
(identity, i.e. heap index). In particular the store built from a
single value is one self-linked cell that is both head and tail. -/
theorem ring_invariant_after_adds (vs : List T) (hne : vs ≠ []) :
    ∃ l, build vs = some l ∧
      l.heap.length = vs.length ∧
      (∃ (hd tl : Nat) (nh nt : Node T), l.head = some hd ∧ l.tail = some tl ∧
        l.heap[hd]? = some nh ∧ nh.prev_node = some tl ∧
        l.heap[tl]? = some nt ∧ nt.next_node = some hd) ∧
      (∀ (i : Nat) (nd : Node T), l.heap[i]? = some nd →
        (∃ (j : Nat) (ndj : Node T), nd.next_node = some j ∧ l.heap[j]? = some ndj ∧
          ndj.prev_node = some i) ∧
        (∃ (j : Nat) (ndj : Node T), nd.prev_node = some j ∧ l.heap[j]? = some ndj ∧
          ndj.next_node = some i)) ∧
      (∀ v : T, build [v] =
        some ⟨[⟨v, some 0, some 0⟩], some 0, some 0⟩) := by
  have h0 : 0 < vs.length := List.length_pos.mpr hne
  refine ⟨ringList vs, build_eq vs, ?_, ?_, ?_, ?_⟩
  · rw [ringList_heap, ringHeap_length]
  · obtain ⟨nh, hnh⟩ : ∃ x, (ringHeap vs)[0]? = some x :=
      ⟨_, ringHeap_getElem vs 0 h0⟩
    obtain ⟨nt, hnt⟩ : ∃ x, (ringHeap vs)[vs.length - 1]? = some x :=
      ⟨_, ringHeap_getElem vs (vs.length - 1) (by omega)⟩
    obtain ⟨_, hnd0⟩ := ringHeap_node vs 0 nh hnh
    obtain ⟨_, hndt⟩ := ringHeap_node vs (vs.length - 1) nt hnt
    refine ⟨0, vs.length - 1, nh, nt, ringList_head vs hne, ringList_tail vs hne,
      ?_, ?_, ?_, ?_⟩
    · rw [ringList_heap]; exact hnh
    · rw [hnd0]
      unfold ringNode prevIdx
      simp
    · rw [ringList_heap]; exact hnt
    · rw [hndt]
      unfold ringNode nextIdx
      have hz : vs.length - 1 + 1 = vs.length := by omega
      simp [hz]
  · intro i nd h
    rw [ringList_heap] at h
    obtain ⟨hi, hnd⟩ := ringHeap_node vs i nd h
    constructor
    · refine ⟨nextIdx vs.length i, ?_⟩
      obtain ⟨ndj, hndj⟩ : ∃ x, (ringHeap vs)[nextIdx vs.length i]? = some x :=
        ⟨_, ringHeap_getElem vs _ (nextIdx_lt _ _ hi)⟩
      obtain ⟨_, hndj2⟩ := ringHeap_node vs _ ndj hndj
      refine ⟨ndj, by rw [hnd]; rfl, by rw [ringList_heap]; exact hndj, ?_⟩
      rw [hndj2]
      unfold ringNode
      rw [prevIdx_nextIdx vs.length i hi]
    · refine ⟨prevIdx vs.length i, ?_⟩
      obtain ⟨ndj, hndj⟩ : ∃ x, (ringHeap vs)[prevIdx vs.length i]? = some x :=
        ⟨_, ringHeap_getElem vs _ (prevIdx_lt _ _ hi)⟩
      obtain ⟨_, hndj2⟩ := ringHeap_node vs _ ndj hndj
      refine ⟨ndj, by rw [hnd]; rfl, by rw [ringList_heap]; exact hndj, ?_⟩
      rw [hndj2]
      unfold ringNode
      rw [nextIdx_prevIdx vs.length i hi]
  · intro v
    rw [build_eq]
    rfl

/-- Witness for C1 at the concrete input `[1, 2, 3]`. -/
theorem ring_invariant_after_adds_witness :
    ∃ l : LinkedList Int, build [1, 2, 3] = some l ∧ l.heap.length = 3 := by
  obtain ⟨l, h1, h2, -⟩ := ring_invariant_after_adds [(1 : Int), 2, 3] (by decide)
  exact ⟨l, h1, by rw [h2]; rfl⟩

/-- Claim C3: forward iteration over the store built from the values
1..9 yields exactly the values 1..9 in order, and a fresh backward
iterator yields exactly 9..1 (12 steps of fuel show nothing further is
yielded). -/
theorem iterate_values_one_to_nine :
    ((build [1, 2, 3, 4, 5, 6, 7, 8, 9] : Option (LinkedList Int)).bind
        fun l => fwdValues l 12) = some [1, 2, 3, 4, 5, 6, 7, 8, 9] ∧
    ((build [1, 2, 3, 4, 5, 6, 7, 8, 9] : Option (LinkedList Int)).bind
        fun l => bwdValues l 12) = some [9, 8, 7, 6, 5, 4, 3, 2, 1] := by
  exact ⟨by decide, by decide⟩

/-- Claim C6: iterating forward over the store built from 1..9 and
calling `mutate(snapshot, 4 * snapshot.value)` on each yielded snapshot
leaves the ring holding 4,8,…,36, as re-read by a subsequent forward
traversal. -/
theorem mutate_each_times_four :
    ((build [1, 2, 3, 4, 5, 6, 7, 8, 9] : Option (LinkedList Int)).bind fun l =>
      (mutateEach (fun x => 4 * x) l.heap 12 l.iter).bind fun h2 =>
        fwdValues { l with heap := h2 } 12)
      = some [4, 8, 12, 16, 20, 24, 28, 32, 36] := by
  decide

/-- Claim C8: on the empty store produced by `new()`, `head()`,
`tail()`, `is_head` and `is_tail` all signal the failure (`none`, the
EmptyList panic) instead of returning a value; being `&self` reads,
they leave the store untouched (in this pure embedding they do not even
produce a store). -/
theorem empty_store_ops_fail (T : Type) :
    (LinkedList.new : LinkedList T).headSnap = none ∧
    (LinkedList.new : LinkedList T).tailSnap = none ∧
    ∀ nd : Node T, (LinkedList.new : LinkedList T).is_head nd = none ∧
      (LinkedList.new : LinkedList T).is_tail nd = none := by
  refine ⟨rfl, rfl, fun nd => ⟨?_, ?_⟩⟩ <;>
    cases hnn : nd.next_node <;>
      simp [LinkedList.is_head, LinkedList.is_tail, LinkedList.new, hnn]

/-- Witness for C8 at element type `Int` and a concrete stray
snapshot. -/
theorem empty_store_ops_fail_witness :
    (LinkedList.new : LinkedList Int).headSnap = none ∧
    (LinkedList.new : LinkedList Int).is_head ⟨3, some 0, some 0⟩ = none := by
  have h := empty_store_ops_fail Int
  exact ⟨h.1, (h.2.2 ⟨3, some 0, some 0⟩).1⟩

/-- Counterexample to claim C9 as stated: on the store built from
[1, 2], one forward step yields the head (value 1), and the following
backward step on the same iterator yields value 1 again — the head —
whereas the claim says it yields the tail's value 2. -/
theorem back_step_after_forward_not_tail :
    ((build [(1 : Int), 2]).bind fun l =>
      (LinkedListIter.next l.heap l.iter).bind fun p1 =>
        (LinkedListIter.next_back l.heap p1.2).map fun p2 =>
          Option.map Node.value p2.1)
      = some (some 1) ∧
    ((build [(1 : Int), 2]).bind LinkedList.tailSnap).map Node.value = some 2 ∧
    (1 : Int) ≠ 2 := by
  exact ⟨by decide, by decide, by decide⟩

/-- Claim C2: for any snapshot `nd` of a cell of a correctly built
non-empty ring, `mutate(nd, v)` follows `nd`'s recorded `next`
neighbour and that neighbour's `prev` pointer back to the original live
cell `i` and writes `v` into that cell's value: the heap update touches
exactly cell `i`, a freshly re-fetched snapshot of cell `i` shows `v`,
and every other cell is untouched. The snapshot passed in is a plain
value, so its stored value is unchanged by construction. -/
theorem mutate_resolves_to_live_node (vs : List T) (l : LinkedList T) (i : Nat)
    (nd : Node T) (v : T) (hb : build vs = some l) (h : l.heap[i]? = some nd) :
    Node.mutate l.heap nd v =
      some (listModify (fun m => { m with value := v }) i l.heap) ∧
    (listModify (fun m => { m with value := v }) i l.heap)[i]? =
      some { nd with value := v } ∧
    (∀ j : Nat, j ≠ i →
      (listModify (fun m => { m with value := v }) i l.heap)[j]? = l.heap[j]?) := by
  rw [build_eq] at hb
  injection hb with hb
  subst hb
  rw [ringList_heap] at h ⊢
  obtain ⟨hi, hnd⟩ := ringHeap_node vs i nd h
  have hn : nd.next_node = some (nextIdx vs.length i) := by rw [hnd]; rfl
  obtain ⟨nn, hnn⟩ : ∃ x, (ringHeap vs)[nextIdx vs.length i]? = some x :=
    ⟨_, ringHeap_getElem vs _ (nextIdx_lt _ _ hi)⟩
  obtain ⟨_, hnn2⟩ := ringHeap_node vs _ nn hnn
  have hp : nn.prev_node = some i := by
    rw [hnn2]
    unfold ringNode
    rw [prevIdx_nextIdx vs.length i hi]
  refine ⟨?_, ?_, ?_⟩
  · simp [Node.mutate, hn, hnn, hp]
  · rw [listModify_getElem?, if_pos rfl, h]
    rfl
  · intro j hj
    rw [listModify_getElem?, if_neg (fun hc => hj hc.symm)]

/-- Witness for C2 at the store built from `[5, 7]`, mutating the
snapshot of cell 0 to the value 9. -/
theorem mutate_resolves_to_live_node_witness :
    Node.mutate (ringList [(5 : Int), 7]).heap ⟨5, some 1, some 1⟩ 9 =
      some (listModify (fun m => { m with value := (9 : Int) }) 0
        (ringList [(5 : Int), 7]).heap) ∧
    (listModify (fun m => { m with value := (9 : Int) }) 0
        (ringList [(5 : Int), 7]).heap)[0]? = some ⟨9, some 1, some 1⟩ := by
  have h := mutate_resolves_to_live_node [(5 : Int), 7] (ringList [5, 7]) 0
    ⟨5, some 1, some 1⟩ 9 (by decide) (by decide)
  exact ⟨h.1, h.2.1⟩

/-- Claim C4: for a snapshot of cell `i` of a correctly built non-empty
ring, `is_head` resolves the snapshot's identity as the `prev` of its
recorded `next` neighbour — recovering `i` — and compares it to the
store's head pointer, returning true exactly when cell `i` is the
current head; `is_tail` likewise against the current tail. -/
theorem is_head_is_tail_identity (vs : List T) (l : LinkedList T) (i : Nat)
    (nd : Node T) (hb : build vs = some l) (h : l.heap[i]? = some nd) :
    (l.is_head nd = some true ↔ l.head = some i) ∧
    (l.is_tail nd = some true ↔ l.tail = some i) := by
  rw [build_eq] at hb
  injection hb with hb
  subst hb
  rw [ringList_heap] at h
  obtain ⟨hi, hnd⟩ := ringHeap_node vs i nd h
  have hne : vs ≠ [] := by
    intro hcon
    rw [hcon] at hi
    simp at hi
  have hn : nd.next_node = some (nextIdx vs.length i) := by rw [hnd]; rfl
  obtain ⟨nn, hnn⟩ : ∃ x, (ringHeap vs)[nextIdx vs.length i]? = some x :=
    ⟨_, ringHeap_getElem vs _ (nextIdx_lt _ _ hi)⟩
  obtain ⟨_, hnn2⟩ := ringHeap_node vs _ nn hnn
  have hp : nn.prev_node = some i := by
    rw [hnn2]
    unfold ringNode
    rw [prevIdx_nextIdx vs.length i hi]
  constructor
  · rw [show LinkedList.is_head (ringList vs) nd =
        (do
          let nid ← nd.next_node
          let nextN ← (ringList vs).heap[nid]?
          let cid ← nextN.prev_node
          let hh ← (ringList vs).head
          pure (decide (hh = cid))) from rfl]
    rw [ringList_heap, ringList_head vs hne, hn]
    simp [hnn, hp, eq_comm]
  · rw [show LinkedList.is_tail (ringList vs) nd =
        (do
          let nid ← nd.next_node
          let nextN ← (ringList vs).heap[nid]?
          let cid ← nextN.prev_node
          let tt ← (ringList vs).tail
          pure (decide (tt = cid))) from rfl]
    rw [ringList_heap, ringList_tail vs hne, hn]
    simp [hnn, hp, eq_comm]

/-- Witness for C4 on the store built from `[5, 7]`: the snapshot of
cell 0 is the head and not the tail. -/
theorem is_head_is_tail_identity_witness :
    ((ringList [(5 : Int), 7]).is_head ⟨5, some 1, some 1⟩ = some true ↔
      (ringList [(5 : Int), 7]).head = some 0) ∧
    ((ringList [(5 : Int), 7]).is_tail ⟨5, some 1, some 1⟩ = some true ↔
      (ringList [(5 : Int), 7]).tail = some 0) :=
  is_head_is_tail_identity [(5 : Int), 7] (ringList [5, 7]) 0
    ⟨5, some 1, some 1⟩ (by decide) (by decide)

/-- Claim C5: on a store with N ≥ 1 nodes, a purely forward and a
purely backward traversal each yield exactly N snapshots and exhaust:
running N steps collects N yields and leaves the exhausted cursor,
running any number of extra steps adds no further yields, and any
number of steps on the exhausted iterator yields nothing. -/
theorem iterator_exhausts_after_ring_size (vs : List T) (l : LinkedList T)
    (hb : build vs = some l) (hne : vs ≠ []) :
    ∃ fwd bwd : List (Node T),
      runFwd l.heap vs.length l.iter = some (fwd, ⟨some 0, none⟩) ∧
      fwd.length = vs.length ∧
      runBwd l.heap vs.length l.iter = some (bwd, ⟨some 0, none⟩) ∧
      bwd.length = vs.length ∧
      (∀ k : Nat, runFwd l.heap (vs.length + k) l.iter =
        some (fwd, ⟨some 0, none⟩)) ∧
      (∀ k : Nat, runBwd l.heap (vs.length + k) l.iter =
        some (bwd, ⟨some 0, none⟩)) ∧
      (∀ k : Nat, runFwd l.heap k ⟨some 0, none⟩ =
        some ([], ⟨some 0, none⟩)) ∧
      (∀ k : Nat, runBwd l.heap k ⟨some 0, none⟩ =
        some ([], ⟨some 0, none⟩)) := by
  rw [build_eq] at hb
  injection hb with hb
  subst hb
  rw [ringList_heap, ringList_iter vs hne]
  refine ⟨ringHeap vs, (ringHeap vs).reverse,
    runFwd_full vs hne, ringHeap_length vs,
    runBwd_full vs hne, by rw [List.length_reverse]; exact ringHeap_length vs,
    ?_, ?_, runFwd_exhausted _ _, runBwd_exhausted _ _⟩
  · intro k
    rw [runFwd_add, runFwd_full vs hne]
    simp [runFwd_exhausted]
  · intro k
    rw [runBwd_add, runBwd_full vs hne]
    simp [runBwd_exhausted]

/-- Witness for C5 on the store built from `[4, 5, 6]`. -/
theorem iterator_exhausts_after_ring_size_witness :
    ∃ fwd bwd : List (Node Int),
      runFwd (ringList [(4 : Int), 5, 6]).heap 3 (ringList [(4 : Int), 5, 6]).iter =
        some (fwd, ⟨some 0, none⟩) ∧
      fwd.length = 3 ∧
      runBwd (ringList [(4 : Int), 5, 6]).heap 3 (ringList [(4 : Int), 5, 6]).iter =
        some (bwd, ⟨some 0, none⟩) ∧
      bwd.length = 3 := by
  obtain ⟨fwd, bwd, h1, h2, h3, h4, -⟩ :=
    iterator_exhausts_after_ring_size [(4 : Int), 5, 6] (ringList [4, 5, 6])
      (by decide) (by decide)
  exact ⟨fwd, bwd, h1, h2, h3, h4⟩

theorem next_ring_step (vs : List T) (i : Nat) (nd : Node T)
    (h : (ringHeap vs)[i]? = some nd) :
    ∃ nd2, Node.next (ringHeap vs) nd = some nd2 ∧
      (ringHeap vs)[nextIdx vs.length i]? = some nd2 := by
  obtain ⟨hi, hnd⟩ := ringHeap_node vs i nd h
  have hn : nd.next_node = some (nextIdx vs.length i) := by rw [hnd]; rfl
  obtain ⟨nd2, h2⟩ : ∃ x, (ringHeap vs)[nextIdx vs.length i]? = some x :=
    ⟨_, ringHeap_getElem vs _ (nextIdx_lt _ _ hi)⟩
  exact ⟨nd2, by simp [Node.next, hn, h2], h2⟩

theorem prev_ring_step (vs : List T) (i : Nat) (nd : Node T)
    (h : (ringHeap vs)[i]? = some nd) :
    ∃ nd2, Node.prev (ringHeap vs) nd = some nd2 ∧
      (ringHeap vs)[prevIdx vs.length i]? = some nd2 := by
  obtain ⟨hi, hnd⟩ := ringHeap_node vs i nd h
  have hp : nd.prev_node = some (prevIdx vs.length i) := by rw [hnd]; rfl
  obtain ⟨nd2, h2⟩ : ∃ x, (ringHeap vs)[prevIdx vs.length i]? = some x :=
    ⟨_, ringHeap_getElem vs _ (prevIdx_lt _ _ hi)⟩
  exact ⟨nd2, by simp [Node.prev, hp, h2], h2⟩

/-- Claim C7: from any snapshot of a cell of a correctly built
non-empty ring, `next()` three times followed by `prev()` three times
returns exactly the starting snapshot — in particular its value is the
starting value. -/
theorem next3_prev3_roundtrip (vs : List T) (l : LinkedList T) (i : Nat)
    (nd : Node T) (hb : build vs = some l) (h : l.heap[i]? = some nd) :
    next3prev3 l.heap nd = some nd ∧
    (next3prev3 l.heap nd).map Node.value = some nd.value := by
  rw [build_eq] at hb
  injection hb with hb
  subst hb
  rw [ringList_heap] at h ⊢
  obtain ⟨hi, -⟩ := ringHeap_node vs i nd h
  have hi1 : nextIdx vs.length i < vs.length := nextIdx_lt _ _ hi
  have hi2 : nextIdx vs.length (nextIdx vs.length i) < vs.length := nextIdx_lt _ _ hi1
  obtain ⟨n1, ha1, hb1⟩ := next_ring_step vs i nd h
  obtain ⟨n2, ha2, hb2⟩ := next_ring_step vs _ n1 hb1
  obtain ⟨n3, ha3, hb3⟩ := next_ring_step vs _ n2 hb2
  obtain ⟨n4, ha4, hb4⟩ := prev_ring_step vs _ n3 hb3
  rw [prevIdx_nextIdx vs.length _ hi2] at hb4
  have e4 : n4 = n2 := by
    rw [hb2] at hb4
    injection hb4 with h4
    exact h4.symm
  subst e4
  obtain ⟨n5, ha5, hb5⟩ := prev_ring_step vs _ n4 hb2
  rw [prevIdx_nextIdx vs.length _ hi1] at hb5
  have e5 : n5 = n1 := by
    rw [hb1] at hb5
    injection hb5 with h5
    exact h5.symm
  subst e5
  obtain ⟨n6, ha6, hb6⟩ := prev_ring_step vs _ n5 hb1
  rw [prevIdx_nextIdx vs.length _ hi] at hb6
  have e6 : n6 = nd := by
    rw [h] at hb6
    injection hb6 with h6
    exact h6.symm
  subst e6
  have hchain : next3prev3 (ringHeap vs) n6 = some n6 := by
    simp [next3prev3, ha1, ha2, ha3, ha4, ha5, ha6]
  exact ⟨hchain, by rw [hchain]; rfl⟩

/-- Witness for C7: the head snapshot of the store built from 1..9 has
value 1, and `next().next().next().prev().prev().prev()` from it again
has value 1, matching the sample program. -/
theorem next3_prev3_roundtrip_witness :
    (ringList [(1 : Int), 2, 3, 4, 5, 6, 7, 8, 9]).headSnap =
      some ⟨1, some 1, some 8⟩ ∧
    (next3prev3 (ringList [(1 : Int), 2, 3, 4, 5, 6, 7, 8, 9]).heap
      ⟨1, some 1, some 8⟩).map Node.value = some 1 := by
  refine ⟨by decide, ?_⟩
  exact (next3_prev3_roundtrip [(1 : Int), 2, 3, 4, 5, 6, 7, 8, 9]
    (ringList [1, 2, 3, 4, 5, 6, 7, 8, 9]) 0 ⟨1, some 1, some 8⟩
    (by decide) (by decide)).2

/-- Amended claim C9: both iteration directions drive the same single
`cur_node` cursor (only the origin sentinel is additionally stored).
On any store with at least two nodes, one forward step yields the head
snapshot and moves the shared cursor to cell 1; the following backward
step on the same iterator yields the head snapshot again — not the
tail — and exhausts the iterator. -/
theorem shared_cursor_back_step (vs : List T) (l : LinkedList T)
    (hb : build vs = some l) (h2 : 2 ≤ vs.length) :
    ∃ nd0 : Node T, l.heap[0]? = some nd0 ∧ l.head = some 0 ∧
      LinkedListIter.next l.heap l.iter = some (some nd0, ⟨some 0, some 1⟩) ∧
      LinkedListIter.next_back l.heap ⟨some 0, some 1⟩ =
        some (some nd0, ⟨some 0, none⟩) := by
  rw [build_eq] at hb
  injection hb with hb
  subst hb
  have hne : vs ≠ [] := by
    intro hcon
    rw [hcon] at h2
    simp at h2
  rw [ringList_heap, ringList_iter vs hne, ringList_head vs hne]
  obtain ⟨nd0, hnd0⟩ : ∃ x, (ringHeap vs)[0]? = some x :=
    ⟨_, ringHeap_getElem vs 0 (by omega)⟩
  obtain ⟨nd1, hnd1⟩ : ∃ x, (ringHeap vs)[1]? = some x :=
    ⟨_, ringHeap_getElem vs 1 (by omega)⟩
  have hstep := iter_next_at vs 0 nd0 hnd0
  rw [if_neg (by omega)] at hstep
  have hpidx : prevIdx vs.length 1 = 0 := by unfold prevIdx; simp
  have hback := iter_next_back_at vs 1 nd1 nd0 hnd1 (by rw [hpidx]; exact hnd0)
  rw [hpidx, if_pos rfl] at hback
  exact ⟨nd0, hnd0, rfl, hstep, hback⟩

/-- Witness for the amended C9 at the concrete store built from
`[1, 2]`. -/
theorem shared_cursor_back_step_witness :
    ∃ nd0 : Node Int, (ringList [(1 : Int), 2]).heap[0]? = some nd0 ∧
      (ringList [(1 : Int), 2]).head = some 0 ∧
      LinkedListIter.next (ringList [(1 : Int), 2]).heap
        (ringList [(1 : Int), 2]).iter = some (some nd0, ⟨some 0, some 1⟩) ∧
      LinkedListIter.next_back (ringList [(1 : Int), 2]).heap ⟨some 0, some 1⟩ =
        some (some nd0, ⟨some 0, none⟩) :=
  shared_cursor_back_step [(1 : Int), 2] (ringList [1, 2]) (by decide) (by decide)

/-- The snapshots a caller can get hold of through the public API of a
store `l`: the results of `head()`/`tail()`, anything yielded by a
forward or backward iterator step, and the results of `next()`/`prev()`
on an already obtained snapshot. -/
inductive Obtainable (l : LinkedList T) : Node T → Prop
  | head {nd : Node T} : l.headSnap = some nd → Obtainable l nd
  | tail {nd : Node T} : l.tailSnap = some nd → Obtainable l nd
  | iterFwd {nd : Node T} (it it2 : LinkedListIter T) :
      LinkedListIter.next l.heap it = some (some nd, it2) → Obtainable l nd
  | iterBwd {nd : Node T} (it it2 : LinkedListIter T) :
      LinkedListIter.next_back l.heap it = some (some nd, it2) → Obtainable l nd
  | nextOf {nd : Node T} (m : Node T) :
      Obtainable l m → Node.next l.heap m = some nd → Obtainable l nd
  | prevOf {nd : Node T} (m : Node T) :
      Obtainable l m → Node.prev l.heap m = some nd → Obtainable l nd

/-- Every obtainable snapshot is a clone of a cell of the heap. -/
theorem obtainable_mem (l : LinkedList T) (nd : Node T)
    (ho : Obtainable l nd) : nd ∈ l.heap := by
  induction ho with
  | head hh =>
    unfold LinkedList.headSnap at hh
    cases hhd : l.head with
    | none => rw [hhd] at hh; simp at hh
    | some hd =>
      rw [hhd] at hh
      simp only [Option.bind_eq_bind, Option.some_bind] at hh
      exact List.getElem?_mem hh
  | tail hh =>
    unfold LinkedList.tailSnap at hh
    cases hhd : l.tail with
    | none => rw [hhd] at hh; simp at hh
    | some tl =>
      rw [hhd] at hh
      simp only [Option.bind_eq_bind, Option.some_bind] at hh
      exact List.getElem?_mem hh
  | iterFwd it it2 hh =>
    unfold LinkedListIter.next at hh
    cases hc : it.cur_node with
    | none => simp [hc] at hh
    | some c =>
      simp only [hc] at hh
      cases hcur : l.heap[c]? with
      | none => simp [hcur] at hh
      | some cur_t =>
        simp only [hcur, Option.bind_eq_bind, Option.some_bind] at hh
        cases hhd : it.head with
        | none => simp [hhd] at hh
        | some h0 =>
          simp only [hhd, Option.some_bind] at hh
          cases hnn : cur_t.next_node with
          | none => simp [hnn] at hh
          | some nid =>
            simp only [hnn, Option.some_bind] at hh
            have hh3 := Option.some.inj (congrArg Prod.fst (Option.some.inj hh))
            rw [← hh3]
            exact List.getElem?_mem hcur
  | iterBwd it it2 hh =>
    unfold LinkedListIter.next_back at hh
    cases hc : it.cur_node with
    | none => simp [hc] at hh
    | some c =>
      simp only [hc] at hh
      cases hcur : l.heap[c]? with
      | none => simp [hcur] at hh
      | some curN =>
        simp only [hcur, Option.bind_eq_bind, Option.some_bind] at hh
        cases hpp : curN.prev_node with
        | none => simp [hpp] at hh
        | some nb =>
          simp only [hpp, Option.some_bind] at hh
          cases hhd : it.head with
          | none => simp [hhd] at hh
          | some h0 =>
            simp only [hhd, Option.some_bind] at hh
            cases hyn : l.heap[nb]? with
            | none => simp [hyn] at hh
            | some yn =>
              simp only [hyn, Option.some_bind] at hh
              have hh3 := Option.some.inj (congrArg Prod.fst (Option.some.inj hh))
              rw [← hh3]
              exact List.getElem?_mem hyn
  | nextOf m hm hstep ih =>
    unfold Node.next at hstep
    cases hnn : m.next_node with
    | none => simp [hnn] at hstep
    | some nid =>
      simp only [hnn] at hstep
      exact List.getElem?_mem hstep
  | prevOf m hm hstep ih =>
    unfold Node.prev at hstep
    cases hpp : m.prev_node with
    | none => simp [hpp] at hstep
    | some pid =>
      simp only [hpp] at hstep
      exact List.getElem?_mem hstep

/-- Claim C10: every snapshot obtainable through the public API of a
correctly built ring has both neighbour pointers set, and on such a
snapshot `next()`, `prev()`, `mutate`, `is_head` and `is_tail` all
succeed — the missing-neighbour failure branches are unreachable. -/
theorem obtainable_snapshots_safe (vs : List T) (l : LinkedList T)
    (hb : build vs = some l) (nd : Node T) (ho : Obtainable l nd) :
    nd.next_node.isSome ∧ nd.prev_node.isSome ∧
    (Node.next l.heap nd).isSome ∧ (Node.prev l.heap nd).isSome ∧
    (∀ v : T, (Node.mutate l.heap nd v).isSome) ∧
    (l.is_head nd).isSome ∧ (l.is_tail nd).isSome := by
  have hmem := obtainable_mem l nd ho
  rw [build_eq] at hb
  injection hb with hb
  subst hb
  rw [ringList_heap] at hmem ⊢
  obtain ⟨i, hi⟩ := List.getElem?_of_mem hmem
  obtain ⟨hlt, hnd⟩ := ringHeap_node vs i nd hi
  have hne : vs ≠ [] := by
    intro hcon
    rw [hcon] at hlt
    simp at hlt
  have hn : nd.next_node = some (nextIdx vs.length i) := by rw [hnd]; rfl
  have hp : nd.prev_node = some (prevIdx vs.length i) := by rw [hnd]; rfl
  obtain ⟨nn, hnn⟩ : ∃ x, (ringHeap vs)[nextIdx vs.length i]? = some x :=
    ⟨_, ringHeap_getElem vs _ (nextIdx_lt _ _ hlt)⟩
  obtain ⟨pn, hpn⟩ : ∃ x, (ringHeap vs)[prevIdx vs.length i]? = some x :=
    ⟨_, ringHeap_getElem vs _ (prevIdx_lt _ _ hlt)⟩
  obtain ⟨_, hnn2⟩ := ringHeap_node vs _ nn hnn
  have hnp : nn.prev_node = some i := by
    rw [hnn2]
    unfold ringNode
    rw [prevIdx_nextIdx vs.length i hlt]
  refine ⟨by rw [hn]; rfl, by rw [hp]; rfl, ?_, ?_, ?_, ?_, ?_⟩
  · simp [Node.next, hn, hnn]
  · simp [Node.prev, hp, hpn]
  · intro v
    simp [Node.mutate, hn, hnn, hnp]
  · rw [show LinkedList.is_head (ringList vs) nd =
        (do
          let nid ← nd.next_node
          let nextN ← (ringList vs).heap[nid]?
          let cid ← nextN.prev_node
          let hh ← (ringList vs).head
          pure (decide (hh = cid))) from rfl]
    rw [ringList_heap, ringList_head vs hne, hn]
    simp [hnn, hnp]
  · rw [show LinkedList.is_tail (ringList vs) nd =
        (do
          let nid ← nd.next_node
          let nextN ← (ringList vs).heap[nid]?
          let cid ← nextN.prev_node
          let tt ← (ringList vs).tail
          pure (decide (tt = cid))) from rfl]
    rw [ringList_heap, ringList_tail vs hne, hn]
    simp [hnn, hnp]

/-- Witness for C10: the head snapshot of the store built from `[1, 2]`
is obtainable, and `next`, `prev`, `is_head` and `is_tail` succeed on
it. -/
theorem obtainable_snapshots_safe_witness :
    (Node.next (ringList [(1 : Int), 2]).heap ⟨1, some 1, some 1⟩).isSome ∧
    (Node.prev (ringList [(1 : Int), 2]).heap ⟨1, some 1, some 1⟩).isSome ∧
    ((ringList [(1 : Int), 2]).is_head ⟨1, some 1, some 1⟩).isSome ∧
    ((ringList [(1 : Int), 2]).is_tail ⟨1, some 1, some 1⟩).isSome := by
  have h := obtainable_snapshots_safe [(1 : Int), 2] (ringList [1, 2]) (by decide)
    ⟨1, some 1, some 1⟩ (Obtainable.head (by decide))
  exact ⟨h.2.2.1, h.2.2.2.1, h.2.2.2.2.2.1, h.2.2.2.2.2.2⟩

end SafeLinkedList
